import Mathlib

/-!
Verification of the cn-infra kvscheduler core against its specification.

The development shallowly embeds the Go sources:

* `utils` (topological sort): `DependsOn` and `TopologicalOrder`.
  Go's `KeySet` (`map[string]struct{}`) is embedded as a `List String`
  holding the elements of the set: iterating a Go map visits each entry
  exactly once in an unspecified order, and the embedding fixes that
  order as the list order.  Where the claims need genuine set semantics
  the theorems carry `Nodup` hypotheses (a Go map cannot contain a key
  twice).  A `map[string]KeySet` is embedded as an association list;
  looking up an absent key yields the empty set, which matches indexing
  a Go map at a missing key (the zero value is the nil map, with length
  0 and an always-false membership test).
* `kvscheduler` utilities: `isNodeReady`, `isNodeReadyRec`,
  `isNodeBeingRemoved` over a model of the graph nodes (the `graph`
  package itself is not part of the sources, so the node accessors are
  modelled from the specification's data model).
* the `kvscheduler` descriptor handler (`descriptorHandler`) with its
  defaulting methods.
* an explicit-heap version of the topological sort, in which every
  `KeySet` is a mutable cell addressed by a reference, used to state
  that `TopologicalOrder` never mutates its arguments.

Recursive Go functions whose termination depends on the finiteness of
the key universe are embedded with an explicit fuel parameter; the fuel
is instantiated with a bound that is provably sufficient, and all
definitions are structurally recursive so that concrete runs reduce in
the kernel.
-/

namespace CnInfra

/-- Go `utils.KeySet` (`map[string]struct{}`): a set of keys, represented by
the list of its elements. -/
abbrev KeySet := List String

/-- A dependency map, as in Go: `map{ key -> set of keys it depends on }`. -/
abbrev DepMap := List (String × KeySet)

/-- Go map indexing `deps[k]`: the entry for the key, or the empty set when
the key is absent. -/
def lookup (deps : DepMap) (k : String) : KeySet :=
  match deps.find? (fun p => p.1 == k) with
  | some p => p.2
  | none => []

/-- All keys mentioned by the dependency map: its domain together with every
member of every dependency set.  This finite universe bounds the depth of the
depth-first searches below. -/
def allKeys (deps : DepMap) : Finset String :=
  deps.foldr (fun p acc => insert p.1 (p.2.foldr insert acc)) ∅

/-- One edge of the dependency map: `depRel deps x y` holds when `x` directly
depends on `y`. -/
def depRel (deps : DepMap) (x y : String) : Prop :=
  y ∈ lookup deps x

instance (deps : DepMap) (x y : String) : Decidable (depRel deps x y) := by
  unfold depRel; infer_instance

/-- Lexicographic comparison of character lists (Go compares strings by
bytes; on UTF-8 encoded strings the byte order coincides with the code-point
order implemented here). -/
def charListLe : List Char → List Char → Bool
  | [], _ => true
  | _ :: _, [] => false
  | a :: as, b :: bs => if a < b then true else if b < a then false else charListLe as bs

/-- Go's string order (`s1 <= s2` as used by `sort.Strings`). -/
def goStringLe (a b : String) : Bool :=
  charListLe a.data b.data

/-- The least element of a list of strings in the order of `sort.Strings`;
`sort.Strings(candidates)` followed by `candidates[0]` selects exactly this
element. -/
def listMin? : List String → Option String
  | [] => none
  | x :: xs =>
    match listMin? xs with
    | none => some x
    | some m => if goStringLe x m then some x else some m

/-! ### `utils.DependsOn` -/

/-- Sibling iteration of the depth-first search in `DependsOn`
(`for dep := range k1Deps` with the shared `visited` set): walk the listed
dependencies in order, skipping the ones already visited, recursing with
`visit` and threading the visited set mutated by the recursive calls (Go
passes the map by reference, and the additions persist across siblings). -/
def foldSearch (visit : String → Finset String → Bool × Finset String) :
    List String → Finset String → Bool × Finset String
  | [], visited => (false, visited)
  | dep :: rest, visited =>
    if dep ∈ visited then foldSearch visit rest visited
    else
      match visit dep visited with
      | (true, visited1) => (true, visited1)
      | (false, visited1) => foldSearch visit rest visited1

/-- The body of `utils.DependsOn`: check the direct dependencies of `k1`,
then add `k1` to `visited` and continue transitively.  `fuel` bounds the
recursion depth (in Go the recursion terminates because `visited` only grows
within the finite key universe). -/
def dependsOnVisit (deps : DepMap) (k2 : String) :
    Nat → String → Finset String → Bool × Finset String
  | 0, _, visited => (false, visited)
  | fuel + 1, k1, visited =>
    let k1Deps := lookup deps k1
    if k2 ∈ k1Deps then (true, visited)
    else foldSearch (dependsOnVisit deps k2 fuel) k1Deps (insert k1 visited)

/-- `utils.DependsOn(k1, k2, deps, nil)`: true when `k1` depends on `k2`,
directly or transitively.  The fuel `(insert k1 (allKeys deps)).card + 1` is
sufficient: every recursive call enlarges the visited subset of that
universe. -/
def DependsOn (k1 k2 : String) (deps : DepMap) : Bool :=
  (dependsOnVisit deps k2 ((insert k1 (allKeys deps)).card + 1) k1 ∅).1

/-- Two keys lie in one strongly-connected component of the dependency graph:
they are equal, or each depends (transitively) on the other. -/
def inSameSCC (deps : DepMap) (a b : String) : Prop :=
  a = b ∨ (DependsOn a b deps = true ∧ DependsOn b a deps = true)

instance (deps : DepMap) (a b : String) : Decidable (inSameSCC deps a b) := by
  unfold inSameSCC; infer_instance

/-! ### `utils.TopologicalOrder` (Kahn's algorithm with cycle fallback)

The loop state of the source is the pair (`remains`, `remainsDeps`).
`remains` is a key set; `remainsDeps` is a Go map from keys to key sets, and
is embedded as a total function that returns the empty set for keys whose
entry was never created or was deleted (`delete(remainsDeps, key)`), which
matches Go's behaviour of indexing a map at an absent key.  The source
iterates over the entries of `remainsDeps` to look for reverse dependencies;
entries exist only for keys of `remains` (and absent entries are empty), so
that iteration is embedded as a scan of `remains`. -/

/-- The ordinary candidate computation of one loop iteration of
`TopologicalOrder`: with `depFirst`, keys whose remaining dependency set is
empty (`len(remainsDeps[key]) == 0`); otherwise keys on which no remaining
key depends. -/
def ordCandidates (depFirst : Bool) (remains : KeySet)
    (remainsDeps : String → KeySet) : KeySet :=
  if depFirst then remains.filter (fun key => (remainsDeps key).isEmpty)
  else remains.filter (fun key => !(remains.any (fun key2 => (remainsDeps key2).contains key)))

/-- The candidates actually selected from in one loop iteration: the ordinary
candidates, or — when there are none — the keys of `remains` that depend on
themselves in `deps` (the cycle fallback). -/
def stepCandidates (deps : DepMap) (depFirst : Bool) (remains : KeySet)
    (remainsDeps : String → KeySet) : KeySet :=
  let cands0 := ordCandidates depFirst remains remainsDeps
  if cands0.isEmpty then remains.filter (fun key => DependsOn key key deps)
  else cands0

/-- The loop of `TopologicalOrder`.  One iteration: compute the candidates
(panic — embedded as `none` — when there are none and `handleCycle` is off),
select the lexicographically first (`sort.Strings` then `candidates[0]`),
append it to the output and remove it from `remains` and from every
remaining dependency set.  `fuel` bounds the number of iterations;
`remains.length` is sufficient because every iteration removes one key.  The
`none` of the `listMin?` match models the out-of-range access
`candidates[0]` on an empty candidate list (proved unreachable below). -/
def topoLoop (deps : DepMap) (depFirst handleCycle : Bool) :
    Nat → KeySet → (String → KeySet) → Option (List String)
  | 0, remains, _ => if remains.isEmpty then some [] else none
  | fuel + 1, remains, remainsDeps =>
    if remains.isEmpty then some []
    else
      if (ordCandidates depFirst remains remainsDeps).isEmpty ∧ ¬handleCycle then
        none
      else
        match listMin? (stepCandidates deps depFirst remains remainsDeps) with
        | none => none
        | some key =>
          (topoLoop deps depFirst handleCycle fuel (remains.erase key)
              (fun key2 => if key2 = key then [] else (remainsDeps key2).erase key)).map
            (fun rest => key :: rest)

/-- `utils.TopologicalOrder(keys, deps, depFirst, handleCycle)`.  The initial
state copies the key set and restricts the dependency map to it
(`keyDeps.Intersect(keys)` for the keys of the set; other keys have no
entry).  `none` models a panic of the source. -/
def TopologicalOrder (keys : KeySet) (deps : DepMap)
    (depFirst handleCycle : Bool) : Option (List String) :=
  topoLoop deps depFirst handleCycle keys.length keys
    (fun key => if key ∈ keys then (lookup deps key).filter (fun x => keys.contains x) else [])

/-! ### The descriptor handler (`descriptorHandler`)

`KVDescriptor` lives in the `api` package, which is not among the sources;
its callback fields are modelled from the specification's descriptor
contract (§6), restricted to the callbacks the handler accesses.  Values and
metadata are opaque to the handler, so they are type parameters.  Go errors
are compared against the three `ErrUnimplemented…` sentinels, which the
inductive `Err` models together with an `other` constructor for every other
error value. -/

/-- Modelled from the spec: the error kinds the handler distinguishes — the
three unimplemented sentinels and arbitrary other errors. -/
inductive Err where
  | ErrUnimplementedAdd
  | ErrUnimplementedModify
  | ErrUnimplementedDelete
  | other (code : Nat)
deriving DecidableEq

/-- Modelled from the spec: who asserted a value — `{FromNB, FromSB, Unknown}`. -/
inductive ValueOrigin where
  | UnknownOrigin
  | FromNB
  | FromSB
deriving DecidableEq

/-- Modelled from the spec: a dependency declared by a descriptor — a label
and either a concrete target key or an any-of selector predicate. -/
structure Dependency where
  Label : String
  Key : String
  AnyOf : Option (String → Bool)

/-- Modelled from the spec: a key-value pair (used for derived values). -/
structure KeyValuePair (Msg : Type) where
  Key : String
  Value : Msg

/-- Modelled from the spec: a dumped key-value with metadata and origin. -/
structure KVWithMetadata (Msg Meta : Type) where
  Key : String
  Value : Msg
  Metadata : Option Meta
  Origin : ValueOrigin

/-- Modelled from the spec: the callback-bearing descriptor contract.  Each
callback is a function-valued field that may be nil (`Option`); the handler
supplies the defaults. -/
structure KVDescriptor (Msg Meta : Type) where
  KeyLabel : Option (String → String) := none
  ValueComparator : Option (String → Msg → Msg → Bool) := none
  Add : Option (String → Msg → Option Meta × Option Err) := none
  Modify : Option (String → Msg → Msg → Option Meta → Option Meta × Option Err) := none
  ModifyWithRecreate : Option (String → Msg → Msg → Option Meta → Bool) := none
  Delete : Option (String → Msg → Option Meta → Option Err) := none
  Update : Option (String → Msg → Option Meta → Option Err) := none
  RetriableFailure : Option (Err → Bool) := none
  Dependencies : Option (String → Msg → List Dependency) := none
  DerivedValues : Option (String → Msg → List (KeyValuePair Msg)) := none
  Dump : Option (List (KVWithMetadata Msg Meta) → List (KVWithMetadata Msg Meta) × Option Err) := none

/-- Modelled from the spec: `proto.Equal` is structural equality of the two
messages. -/
def protoEqual {Msg : Type} [DecidableEq Msg] (v1 v2 : Msg) : Bool :=
  decide (v1 = v2)

/-- Modelled from the spec: `NonRetriableIfInTheList(errs)` builds the
retriability predicate that is false exactly on the listed errors. -/
def NonRetriableIfInTheList (errs : List Err) : Err → Bool :=
  fun err => !(errs.contains err)

/-- `descriptorHandler`: handles access to descriptor methods (callbacks);
for a callback not provided, a default return value is returned. -/
structure descriptorHandler (Msg Meta : Type) where
  descriptor : Option (KVDescriptor Msg Meta)

namespace descriptorHandler

variable {Msg Meta : Type}

/-- `keyLabel` by default returns the key itself. -/
def keyLabel (h : descriptorHandler Msg Meta) (key : String) : String :=
  match h.descriptor with
  | none => key
  | some d =>
    match d.KeyLabel with
    | none => key
    | some f => f key

/-- `equivalentValues` by default uses `proto.Equal()`. -/
def equivalentValues [DecidableEq Msg] (h : descriptorHandler Msg Meta)
    (key : String) (v1 v2 : Msg) : Bool :=
  match h.descriptor with
  | none => protoEqual v1 v2
  | some d =>
    match d.ValueComparator with
    | none => protoEqual v1 v2
    | some f => f key v1 v2

/-- `add` returns `ErrUnimplementedAdd` if `Add` is not provided (and the
zero values when there is no descriptor at all). -/
def add (h : descriptorHandler Msg Meta) (key : String) (value : Msg) :
    Option Meta × Option Err :=
  match h.descriptor with
  | none => (none, none)
  | some d =>
    match d.Add with
    | none => (none, some Err.ErrUnimplementedAdd)
    | some f => f key value

/-- `modify` returns `ErrUnimplementedModify` if `Modify` is not provided;
the old metadata is returned either way when the callback is missing. -/
def modify (h : descriptorHandler Msg Meta) (key : String)
    (oldValue newValue : Msg) (oldMetadata : Option Meta) :
    Option Meta × Option Err :=
  match h.descriptor with
  | none => (oldMetadata, none)
  | some d =>
    match d.Modify with
    | none => (oldMetadata, some Err.ErrUnimplementedModify)
    | some f => f key oldValue newValue oldMetadata

/-- `modifyWithRecreate` by default assumes any change can be applied using
`Modify` without re-creation. -/
def modifyWithRecreate (h : descriptorHandler Msg Meta) (key : String)
    (oldValue newValue : Msg) (metadata : Option Meta) : Bool :=
  match h.descriptor with
  | none => false
  | some d =>
    match d.ModifyWithRecreate with
    | none => false
    | some f => f key oldValue newValue metadata

/-- `delete` returns `ErrUnimplementedDelete` if `Delete` is not provided. -/
def delete (h : descriptorHandler Msg Meta) (key : String) (value : Msg)
    (metadata : Option Meta) : Option Err :=
  match h.descriptor with
  | none => none
  | some d =>
    match d.Delete with
    | none => some Err.ErrUnimplementedDelete
    | some f => f key value metadata

/-- `update` does nothing if `Update` is not provided (totally optional
method). -/
def update (h : descriptorHandler Msg Meta) (key : String) (value : Msg)
    (metadata : Option Meta) : Option Err :=
  match h.descriptor with
  | none => none
  | some d =>
    match d.Update with
    | none => none
    | some f => f key value metadata

/-- `retriableFailure` first checks for the errors returned by the handler
itself; if the descriptor does not define `RetriableFailure`, it is assumed
any failure can be potentially fixed by retry. -/
def retriableFailure (h : descriptorHandler Msg Meta) (err : Err) : Bool :=
  let handlerErrs := [Err.ErrUnimplementedAdd, Err.ErrUnimplementedModify,
    Err.ErrUnimplementedDelete]
  let retriable := NonRetriableIfInTheList handlerErrs
  if retriable err = false then false
  else
    match h.descriptor with
    | none => true
    | some d =>
      match d.RetriableFailure with
      | none => true
      | some f => f err

/-- `dependencies` returns the empty list if the descriptor does not define
any. -/
def dependencies (h : descriptorHandler Msg Meta) (key : String) (value : Msg) :
    List Dependency :=
  match h.descriptor with
  | none => []
  | some d =>
    match d.Dependencies with
    | none => []
    | some f => f key value

/-- `derivedValues` returns the empty list if the descriptor does not define
any. -/
def derivedValues (h : descriptorHandler Msg Meta) (key : String) (value : Msg) :
    List (KeyValuePair Msg) :=
  match h.descriptor with
  | none => []
  | some d =>
    match d.DerivedValues with
    | none => []
    | some f => f key value

/-- `dump` returns `ableToDump` as false if the descriptor does not implement
`Dump`. -/
def dump (h : descriptorHandler Msg Meta)
    (correlate : List (KVWithMetadata Msg Meta)) :
    List (KVWithMetadata Msg Meta) × Bool × Option Err :=
  match h.descriptor with
  | none => ([], false, none)
  | some d =>
    match d.Dump with
    | none => ([], false, none)
    | some f =>
      let res := f correlate
      (res.1, true, res.2)

end descriptorHandler

/-! ### Graph nodes and readiness (`isNodeReady`, `isNodeBeingRemoved`)

The `graph` package is not among the sources; a graph node is modelled from
the specification's data model: a key, the flags the utilities read
(`Origin`, `Pending`, `Derived`, `LastChange`) and the outgoing edges by
relation — the `Dependency` targets, grouped per dependency label
(`GetTargets` returns one target list per relation label), and the
`Derives` sources.  Nodes are addressed by their index in the graph's node
list. -/

/-- Modelled from the spec: one graph node as seen by the scheduler
utilities.  `lastChangeIsNilValue = some b` states that the `LastChange`
flag is present and that `b` tells whether its recorded value is nil. -/
structure GraphNode where
  key : String := ""
  originFlag : Option ValueOrigin := none
  pendingFlag : Bool := false
  derivedFlag : Bool := false
  lastChangeIsNilValue : Option Bool := none
  depTargets : List (List Nat) := []
  derivesSources : List Nat := []

instance : Inhabited GraphNode := ⟨{}⟩

/-- Modelled from the spec: the graph is the collection of its nodes; edges
store node indices. -/
structure Graph where
  nodes : List GraphNode

/-- The node stored at an index (a default node for an out-of-range index;
well-formed graphs only store valid indices). -/
def Graph.node (g : Graph) (i : Nat) : GraphNode :=
  g.nodes.getD i {}

/-- `getNodeOrigin`: the node origin stored in the `Origin` flag, or
`UnknownOrigin` when the flag is absent. -/
def getNodeOrigin (g : Graph) (i : Nat) : ValueOrigin :=
  match (g.node i).originFlag with
  | some o => o
  | none => ValueOrigin.UnknownOrigin

/-- `isNodePending`: whether the `Pending` flag is present. -/
def isNodePending (g : Graph) (i : Nat) : Bool :=
  (g.node i).pendingFlag

/-- `isNodeDerived`: whether the `Derived` flag is present. -/
def isNodeDerived (g : Graph) (i : Nat) : Bool :=
  (g.node i).derivedFlag

/-- The condition `getNodeLastChange(n) != nil && getNodeLastChange(n).value
== nil`: the node is about to be removed by a transaction. -/
def lastChangeNilValue (g : Graph) (i : Nat) : Bool :=
  match (g.node i).lastChangeIsNilValue with
  | some b => b
  | none => false

/-- The base-searching loop of `isNodeBeingRemoved`: follow the first
`Derives` source; return `none` when a pending ancestor is found (the source
returns true early), otherwise the base reached when no source is left.
`fuel` bounds the walk (in Go the derivation chains of well-formed graphs
are finite and acyclic). -/
def findBase (g : Graph) : Nat → Nat → Option Nat
  | 0, base => some base
  | fuel + 1, base =>
    match (g.node base).derivesSources with
    | [] => some base
    | s0 :: _ =>
      if isNodePending g s0 then none
      else findBase g fuel s0

/-- `isNodeBeingRemoved`: true if the node is being removed by a transaction
or a notification — for a derived node, when a value it derives from is
pending or was already removed, and for the reached base (or the node
itself), when its last change records a nil value. -/
def isNodeBeingRemoved (g : Graph) (n : Nat) : Bool :=
  if isNodeDerived g n then
    match findBase g (g.nodes.length + 1) n with
    | none => true
    | some base =>
      if isNodeDerived g base then true
      else lastChangeNilValue g base
  else lastChangeNilValue g n

/-- The inner target loop of `isNodeReadyRec` for one dependency label.  The
state is the pair (`satisfied`, `cycle`); targets being removed are skipped;
a non-pending target satisfies the dependency (and for the source node the
loop breaks); a target that closes a cycle back to the source — directly or
through the recursive call `visit` — sets both flags and breaks. -/
def depGroupLoop (g : Graph) (srcKey curKey : String) (visited : Finset String)
    (visit : Nat → Bool) : List Nat → Bool → Bool → Bool × Bool
  | [], satisfied, cycle => (satisfied, cycle)
  | t :: ts, satisfied, cycle =>
    if isNodeBeingRemoved g t then depGroupLoop g srcKey curKey visited visit ts satisfied cycle
    else
      let satisfied1 := if isNodePending g t = false then true else satisfied
      if isNodePending g t = false ∧ curKey = srcKey then (satisfied1, cycle)
      else
        if (g.node t).key = srcKey ∨ ((g.node t).key ∉ visited ∧ visit t = true) then
          (true, true)
        else depGroupLoop g srcKey curKey visited visit ts satisfied1 cycle

/-- The outer loop of `isNodeReadyRec` over the dependency labels: each label
must end satisfied (otherwise the function returns false), the `cycle` flag
is threaded through, and at the end the function returns true for the source
node itself and otherwise whether a cycle through the source was found. -/
def depGroupsLoop (g : Graph) (srcKey curKey : String) (visited : Finset String)
    (visit : Nat → Bool) : List (List Nat) → Bool → Bool
  | [], cycle => decide (curKey = srcKey) || cycle
  | grp :: grps, cycle =>
    match depGroupLoop g srcKey curKey visited visit grp false cycle with
    | (false, _) => false
    | (true, cycle1) => depGroupsLoop g srcKey curKey visited visit grps cycle1

/-- `isNodeReadyRec`, the recursive call from within `isNodeReady`.  The
visited set records the keys of the current search path: the source adds the
current node's key on entry and removes it on exit (`defer delete`), which in
the pure embedding amounts to passing the extended set to the recursive
calls only.  `fuel` bounds the recursion depth (the path cannot revisit a
key, so one more than the number of nodes suffices). -/
def isNodeReadyRec (g : Graph) : Nat → Nat → Nat → Finset String → Bool
  | 0, _, _, _ => false
  | fuel + 1, src, current, visited =>
    let visited1 := insert (g.node current).key visited
    depGroupsLoop g (g.node src).key (g.node current).key visited1
      (fun t => isNodeReadyRec g fuel src t visited1)
      (g.node current).depTargets false

/-- `isNodeReady`: true if the given node has all dependencies satisfied;
for SB values dependencies are not checked.  Nodes of a strongly-connected
component are treated as if they were squashed into one. -/
def isNodeReady (g : Graph) (n : Nat) : Bool :=
  if getNodeOrigin g n = ValueOrigin.FromSB then true
  else isNodeReadyRec g (g.nodes.length + 1) n n ∅

/-- The cycle test applied to a dependency target of the source node itself
(`visited = {srcKey}` at that point, so the visited check is a comparison
with the source key): the target closes a strongly-connected component with
the source, as detected by the depth-first search of `isNodeReadyRec`
returning to the source node. -/
def sameSccByDfs (g : Graph) (src t : Nat) : Prop :=
  (g.node t).key = (g.node src).key ∨
    ((g.node t).key ≠ (g.node src).key ∧
      isNodeReadyRec g g.nodes.length src t
        (insert (g.node src).key ∅) = true)

instance (g : Graph) (src t : Nat) : Decidable (sameSccByDfs g src t) := by
  unfold sameSccByDfs; infer_instance

/-! ### An explicit-heap model of `TopologicalOrder`

Go passes maps by reference: `keys` and the sets stored in `deps` are
mutable cells owned by the caller.  To state that `TopologicalOrder` does
not mutate its arguments, the heap version below addresses every `KeySet`
through a reference into an explicit heap.  The `KeySet` operations used by
the source are not among the source files and are modelled from the
specification: `DeepCopy` allocates a fresh copy, `Intersect` allocates a
fresh intersection, `Del` deletes in place, `Has` only reads. -/

/-- A heap of `KeySet` cells: an allocation counter and the cell contents. -/
structure Heap where
  next : Nat
  mem : Nat → KeySet

/-- Read a cell. -/
def Heap.read (h : Heap) (r : Nat) : KeySet :=
  h.mem r

/-- Overwrite a cell in place. -/
def Heap.write (h : Heap) (r : Nat) (s : KeySet) : Heap :=
  ⟨h.next, fun r2 => if r2 = r then s else h.mem r2⟩

/-- Allocate a fresh cell holding `s`. -/
def Heap.alloc (h : Heap) (s : KeySet) : Nat × Heap :=
  (h.next, ⟨h.next + 1, fun r2 => if r2 = h.next then s else h.mem r2⟩)

/-- Modelled from the spec: `KeySet.DeepCopy` allocates a fresh copy of the
set. -/
def deepCopyH (h : Heap) (r : Nat) : Nat × Heap :=
  h.alloc (h.read r)

/-- Modelled from the spec: `KeySet.Intersect` allocates a fresh set holding
the common keys. -/
def intersectH (h : Heap) (r1 r2 : Nat) : Nat × Heap :=
  h.alloc ((h.read r1).filter (fun x => (h.read r2).contains x))

/-- Modelled from the spec: `KeySet.Del` removes a key in place. -/
def delH (h : Heap) (r : Nat) (key : String) : Heap :=
  h.write r ((h.read r).erase key)

/-- The dependency map as the callers see it: every set read from the heap. -/
def readDepsH (h : Heap) (deps : List (String × Nat)) : DepMap :=
  deps.map (fun p => (p.1, h.read p.2))

/-- The entry-building loop of the initialisation
(`for key, keyDeps := range deps`): skip keys outside the key set, allocate
the intersection `keyDeps.Intersect(keys)` for the others. -/
def topoInitGo (keysRef : Nat) :
    List (String × Nat) → Nat → List (String × Nat) → Heap →
      (Nat × List (String × Nat)) × Heap
  | [], remainsRef, rdA, h => ((remainsRef, rdA), h)
  | p :: l, remainsRef, rdA, h =>
    if (h.read keysRef).contains p.1 then
      topoInitGo keysRef l remainsRef (rdA ++ [(p.1, (intersectH h p.2 keysRef).1)])
        (intersectH h p.2 keysRef).2
    else topoInitGo keysRef l remainsRef rdA h

/-- The initialisation of `TopologicalOrder` on the heap: deep-copy the key
set into `remains` and build `remainsDeps` from fresh intersections with the
key set. -/
def topoInitH (h0 : Heap) (keysRef : Nat) (deps : List (String × Nat)) :
    (Nat × List (String × Nat)) × Heap :=
  topoInitGo keysRef deps (deepCopyH h0 keysRef).1 [] (deepCopyH h0 keysRef).2

/-- Reading `remainsDeps[key]` on the heap: look the key up in the
association list and read the cell (the empty set for an absent entry). -/
def rdReadH (h : Heap) (rdA : List (String × Nat)) (key : String) : KeySet :=
  match rdA.find? (fun p => p.1 == key) with
  | some p => h.read p.2
  | none => []

/-- The ordinary candidate computation of the heap model, reading the
current cells (with `depFirst`, keys with an empty remaining dependency
set; otherwise keys no remaining entry depends on — the source iterates the
entries of `remainsDeps` here). -/
def ordCandidatesH (depFirst : Bool) (h : Heap) (remains : KeySet)
    (rdA : List (String × Nat)) : KeySet :=
  if depFirst then remains.filter (fun key => (rdReadH h rdA key).isEmpty)
  else remains.filter (fun key => !(rdA.any (fun p => (h.read p.2).contains key)))

/-- The candidates of one iteration of the heap model, with the cycle
fallback reading the caller's dependency map through the heap. -/
def stepCandidatesH (deps : List (String × Nat)) (depFirst : Bool) (h : Heap)
    (remains : KeySet) (rdA : List (String × Nat)) : KeySet :=
  if (ordCandidatesH depFirst h remains rdA).isEmpty then
    remains.filter (fun key => DependsOn key key (readDepsH h deps))
  else ordCandidatesH depFirst h remains rdA

/-- The loop of `TopologicalOrder` on the heap.  The candidate computations
read the cells of the current state; the mutations are `remains.Del(key)`,
`delete(remainsDeps, key)` and `key2Deps.Del(key)` on every remaining entry. -/
def topoLoopH (deps : List (String × Nat)) (depFirst handleCycle : Bool) :
    Nat → Heap → Nat → List (String × Nat) → Option (List String) × Heap
  | 0, h, remainsRef, _ => (if (h.read remainsRef).isEmpty then some [] else none, h)
  | fuel + 1, h, remainsRef, rdA =>
    if (h.read remainsRef).isEmpty then (some [], h)
    else
      if (ordCandidatesH depFirst h (h.read remainsRef) rdA).isEmpty ∧ ¬handleCycle then
        (none, h)
      else
        match listMin? (stepCandidatesH deps depFirst h (h.read remainsRef) rdA) with
        | none => (none, h)
        | some key =>
          let h1 := delH h remainsRef key
          let rdA1 := rdA.filter (fun p => p.1 != key)
          let h2 := rdA1.foldl (fun hh p => delH hh p.2 key) h1
          let res := topoLoopH deps depFirst handleCycle fuel h2 remainsRef rdA1
          (res.1.map (fun rest => key :: rest), res.2)

/-- `TopologicalOrder` on the heap: initialise, then run the loop with fuel
equal to the number of remaining keys. -/
def TopologicalOrderH (h0 : Heap) (keysRef : Nat) (deps : List (String × Nat))
    (depFirst handleCycle : Bool) : Option (List String) × Heap :=
  let ini := topoInitH h0 keysRef deps
  topoLoopH deps depFirst handleCycle (ini.2.read ini.1.1).length ini.2 ini.1.1 ini.1.2

/-! ## Lemmas about the string order and `listMin?` -/

lemma charListLe_iff_not_lt :
    ∀ as bs : List Char, charListLe as bs = true ↔ ¬ List.Lex (· < ·) bs as
  | [], bs => by
    constructor
    · intro _ hlt
      cases hlt
    · intro _
      rfl
  | a :: as, [] => by
    constructor
    · intro h
      simp [charListLe] at h
    · intro h
      exact absurd List.Lex.nil h
  | a :: as, b :: bs => by
    constructor
    · intro h hlt
      by_cases hab : a < b
      · cases hlt with
        | cons htl => exact lt_irrefl a hab
        | rel hba => exact absurd hba (lt_asymm hab)
      · by_cases hba : b < a
        · simp [charListLe, hab, hba] at h
        · simp only [charListLe, if_neg hab, if_neg hba] at h
          cases hlt with
          | cons htl => exact ((charListLe_iff_not_lt as bs).mp h) htl
          | rel hba2 => exact hba hba2
    · intro h
      by_cases hab : a < b
      · simp [charListLe, hab]
      · by_cases hba : b < a
        · exact absurd (List.Lex.rel hba) h
        · simp only [charListLe, if_neg hab, if_neg hba]
          have hba2 : b = a := le_antisymm (not_lt.mp hab) (not_lt.mp hba)
          subst hba2
          exact (charListLe_iff_not_lt as bs).mpr (fun htl => h (List.Lex.cons htl))

/-- The embedded Go string order agrees with the lexicographic linear order
on `String`. -/
lemma goStringLe_iff (a b : String) : goStringLe a b = true ↔ a ≤ b := by
  unfold goStringLe
  rw [charListLe_iff_not_lt]
  have hlt : List.Lex (· < ·) b.data a.data ↔ b < a := by
    rw [String.lt_iff_toList_lt]
    exact Iff.rfl
  rw [hlt]
  exact not_lt

lemma goStringLe_refl (a : String) : goStringLe a a = true :=
  (goStringLe_iff a a).mpr le_rfl

lemma listMin?_eq_none_iff : ∀ l : List String, listMin? l = none ↔ l = []
  | [] => by simp [listMin?]
  | x :: xs => by
    simp only [listMin?]
    cases h : listMin? xs with
    | none => simp
    | some m =>
      constructor
      · intro hc
        by_cases hx : goStringLe x m <;> simp [hx] at hc
      · intro hc
        exact absurd hc (List.cons_ne_nil x xs)

lemma listMin?_mem : ∀ {l : List String} {m : String}, listMin? l = some m → m ∈ l
  | [], m => by simp [listMin?]
  | x :: xs, m => by
    simp only [listMin?]
    cases h : listMin? xs with
    | none =>
      intro hc
      simp at hc
      simp [hc]
    | some m2 =>
      by_cases hx : goStringLe x m2 <;> intro hc <;> simp [hx] at hc
      · simp [hc]
      · have := listMin?_mem h
        rw [hc] at this
        simp [this]

lemma listMin?_le : ∀ {l : List String} {m : String}, listMin? l = some m →
    ∀ x ∈ l, m ≤ x
  | [], m => by simp [listMin?]
  | x :: xs, m => by
    simp only [listMin?]
    cases h : listMin? xs with
    | none =>
      intro hc y hy
      simp at hc
      rw [(listMin?_eq_none_iff xs).mp h] at hy
      simp at hy
      rw [← hc, hy]
    | some m2 =>
      by_cases hx : goStringLe x m2 <;> intro hc <;> simp [hx] at hc <;>
        intro y hy <;> rcases List.mem_cons.mp hy with hyx | hyxs
      · rw [← hc, hyx]
      · exact le_trans (hc ▸ (goStringLe_iff x m2).mp hx) (listMin?_le h y hyxs)
      · rw [← hc, hyx]
        have := (goStringLe_iff x m2).not.mp (by simp [hx])
        exact le_of_lt (lt_of_not_le this)
      · exact hc ▸ listMin?_le h y hyxs

lemma mem_foldr_insert (l : List String) (acc : Finset String) (x : String) :
    x ∈ l.foldr insert acc ↔ x ∈ l ∨ x ∈ acc := by
  induction l with
  | nil => simp
  | cons y ys ih => simp [ih, or_assoc]

lemma lookup_subset_allKeys (deps : DepMap) (k : String) :
    ∀ x ∈ lookup deps k, x ∈ allKeys deps := by
  induction deps with
  | nil => simp [lookup, allKeys]
  | cons p rest ih =>
    intro x hx
    simp only [allKeys, List.foldr_cons, Finset.mem_insert, mem_foldr_insert]
    by_cases hk : p.1 == k
    · have heq : lookup (p :: rest) k = p.2 := by
        simp [lookup, List.find?, hk]
      rw [heq] at hx
      exact Or.inr (Or.inl hx)
    · have heq : lookup (p :: rest) k = lookup rest k := by
        simp [lookup, List.find?, hk]
      rw [heq] at hx
      exact Or.inr (Or.inr (ih x hx))

/-! ## Correctness of the depth-first search of `DependsOn`

`DependsOn` is a depth-first search with an accumulated visited set.  The
key invariant is about failing runs: when a visit returns `false`, the
visited set has grown to a set that is closed under dependency edges (up to
the initially visited keys) and that contains no direct edge to the target.
Completeness of the search follows, and soundness is a direct induction. -/

section DfsLemmas

variable (deps : DepMap) (k2 : String) (U : Finset String)

/-- The closure property of a failed search from `k1`: everything newly
visited has been fully explored — no direct edge to `k2`, and all its
dependencies visited. -/
def dfsClosed (visited out : Finset String) : Prop :=
  ∀ w ∈ out, w ∈ visited ∨ (k2 ∉ lookup deps w ∧ ∀ c ∈ lookup deps w, c ∈ out)

/-- The statement of the failed-visit invariant at a given fuel. -/
def VisitInv (fuel : Nat) : Prop :=
  ∀ k1 visited out, k1 ∈ U → k1 ∉ visited → (U \ visited).card < fuel →
    dependsOnVisit deps k2 fuel k1 visited = (false, out) →
    visited ⊆ out ∧ k1 ∈ out ∧ dfsClosed deps k2 visited out

lemma foldSearch_false_closure (fuel : Nat)
    (hvisit : VisitInv deps k2 U fuel) :
    ∀ (cs : List String) (visited out : Finset String), (∀ c ∈ cs, c ∈ U) →
      (U \ visited).card < fuel →
      foldSearch (dependsOnVisit deps k2 fuel) cs visited = (false, out) →
      visited ⊆ out ∧ (∀ c ∈ cs, c ∈ out) ∧ dfsClosed deps k2 visited out := by
  intro cs
  induction cs with
  | nil =>
    intro visited out _ _ hrun
    simp only [foldSearch, Prod.mk.injEq] at hrun
    refine ⟨hrun.2 ▸ Finset.Subset.refl _, by simp, ?_⟩
    intro w hw
    rw [← hrun.2] at hw
    exact Or.inl hw
  | cons c cs ih =>
    intro visited out hcs hcard hrun
    simp only [foldSearch] at hrun
    by_cases hcv : c ∈ visited
    · rw [if_pos hcv] at hrun
      obtain ⟨h1, h2, h3⟩ := ih visited out (fun x hx => hcs x (List.mem_cons_of_mem c hx))
        hcard hrun
      exact ⟨h1, fun x hx => by
        rcases List.mem_cons.mp hx with rfl | hx2
        · exact h1 hcv
        · exact h2 x hx2, h3⟩
    · rw [if_neg hcv] at hrun
      rcases hv : dependsOnVisit deps k2 fuel c visited with ⟨b, v1⟩
      rw [hv] at hrun
      cases b with
      | true => simp at hrun
      | false =>
        simp only at hrun
        obtain ⟨hsub1, hc1, hclosed1⟩ :=
          hvisit c visited v1 (hcs c (List.mem_cons_self c cs)) hcv hcard hv
        have hcard1 : (U \ v1).card < fuel :=
          lt_of_le_of_lt (Finset.card_le_card (Finset.sdiff_subset_sdiff
            (Finset.Subset.refl U) hsub1)) hcard
        obtain ⟨hsub2, hmem2, hclosed2⟩ := ih v1 out
          (fun x hx => hcs x (List.mem_cons_of_mem c hx)) hcard1 hrun
        refine ⟨hsub1.trans hsub2, fun x hx => ?_, ?_⟩
        · rcases List.mem_cons.mp hx with rfl | hx2
          · exact hsub2 hc1
          · exact hmem2 x hx2
        · intro w hw
          rcases hclosed2 w hw with hwv1 | hP
          · rcases hclosed1 w hwv1 with hwv | hP1
            · exact Or.inl hwv
            · exact Or.inr ⟨hP1.1, fun x hx => hsub2 (hP1.2 x hx)⟩
          · exact Or.inr hP

lemma dependsOnVisit_false_closure (hU : allKeys deps ⊆ U) :
    ∀ fuel, VisitInv deps k2 U fuel := by
  intro fuel
  induction fuel with
  | zero =>
    intro k1 visited out _ _ hcard _
    exact absurd hcard (Nat.not_lt_zero _)
  | succ fuel ih =>
    intro k1 visited out hk1U hk1v hcard hrun
    simp only [dependsOnVisit] at hrun
    by_cases hdir : k2 ∈ lookup deps k1
    · rw [if_pos hdir] at hrun
      simp at hrun
    · rw [if_neg hdir] at hrun
      have hk1mem : k1 ∈ U \ visited := Finset.mem_sdiff.mpr ⟨hk1U, hk1v⟩
      have hcard1 : (U \ insert k1 visited).card < fuel := by
        have : U \ insert k1 visited = (U \ visited).erase k1 := by
          ext x
          simp only [Finset.mem_sdiff, Finset.mem_insert, Finset.mem_erase]
          tauto
        rw [this, Finset.card_erase_of_mem hk1mem]
        have hpos : 0 < (U \ visited).card := Finset.card_pos.mpr ⟨k1, hk1mem⟩
        omega
      obtain ⟨hsub, hmem, hclosed⟩ := foldSearch_false_closure deps k2 U fuel ih
        (lookup deps k1) (insert k1 visited) out
        (fun c hc => hU (lookup_subset_allKeys deps k1 c hc)) hcard1 hrun
      refine ⟨fun x hx => hsub (Finset.mem_insert_of_mem hx),
        hsub (Finset.mem_insert_self k1 visited), ?_⟩
      intro w hw
      rcases hclosed w hw with hwv | hP
      · rcases Finset.mem_insert.mp hwv with rfl | hwv2
        · exact Or.inr ⟨hdir, hmem⟩
        · exact Or.inl hwv2
      · exact Or.inr hP

end DfsLemmas

/-- Completeness of `DependsOn`: a non-empty dependency path from `k1` to
`k2` is found by the search. -/
lemma DependsOn_complete {deps : DepMap} {k1 k2 : String}
    (h : Relation.TransGen (depRel deps) k1 k2) : DependsOn k1 k2 deps = true := by
  by_contra hf
  rw [Bool.not_eq_true] at hf
  unfold DependsOn at hf
  rcases hp : dependsOnVisit deps k2 ((insert k1 (allKeys deps)).card + 1) k1 ∅
    with ⟨b, out⟩
  rw [hp] at hf
  simp only at hf
  subst hf
  have hU : allKeys deps ⊆ insert k1 (allKeys deps) := Finset.subset_insert _ _
  obtain ⟨-, hk1, hclosed⟩ := dependsOnVisit_false_closure deps k2
    (insert k1 (allKeys deps)) hU ((insert k1 (allKeys deps)).card + 1)
    k1 ∅ out (Finset.mem_insert_self _ _) (Finset.not_mem_empty _)
    (by rw [Finset.sdiff_empty]; omega) hp
  have hclosed2 : ∀ w ∈ out, k2 ∉ lookup deps w ∧ ∀ c ∈ lookup deps w, c ∈ out := by
    intro w hw
    rcases hclosed w hw with hem | hP
    · exact absurd hem (Finset.not_mem_empty w)
    · exact hP
  have : ∀ w, Relation.TransGen (depRel deps) w k2 → w ∈ out → False := by
    intro w hw
    induction hw using Relation.TransGen.head_induction_on with
    | base hr =>
      intro hmem
      exact (hclosed2 _ hmem).1 hr
    | ih hr htg ih2 =>
      intro hmem
      exact ih2 ((hclosed2 _ hmem).2 _ hr)
  exact this k1 h hk1

lemma foldSearch_sound (deps : DepMap) (k2 : String) (fuel : Nat)
    (hvisit : ∀ k1 visited v1, dependsOnVisit deps k2 fuel k1 visited = (true, v1) →
      Relation.TransGen (depRel deps) k1 k2) :
    ∀ (cs : List String) (visited v1 : Finset String),
      foldSearch (dependsOnVisit deps k2 fuel) cs visited = (true, v1) →
      ∃ c ∈ cs, Relation.TransGen (depRel deps) c k2 := by
  intro cs
  induction cs with
  | nil =>
    intro visited v1 hrun
    simp [foldSearch] at hrun
  | cons c cs ih =>
    intro visited v1 hrun
    simp only [foldSearch] at hrun
    by_cases hcv : c ∈ visited
    · rw [if_pos hcv] at hrun
      obtain ⟨c2, hc2, hp⟩ := ih visited v1 hrun
      exact ⟨c2, List.mem_cons_of_mem c hc2, hp⟩
    · rw [if_neg hcv] at hrun
      rcases hv : dependsOnVisit deps k2 fuel c visited with ⟨b, v2⟩
      rw [hv] at hrun
      cases b with
      | true =>
        exact ⟨c, List.mem_cons_self c cs, hvisit c visited v2 hv⟩
      | false =>
        obtain ⟨c2, hc2, hp⟩ := ih v2 v1 hrun
        exact ⟨c2, List.mem_cons_of_mem c hc2, hp⟩

lemma dependsOnVisit_sound (deps : DepMap) (k2 : String) :
    ∀ fuel k1 visited v1, dependsOnVisit deps k2 fuel k1 visited = (true, v1) →
      Relation.TransGen (depRel deps) k1 k2 := by
  intro fuel
  induction fuel with
  | zero =>
    intro k1 visited v1 hrun
    simp [dependsOnVisit] at hrun
  | succ fuel ih =>
    intro k1 visited v1 hrun
    simp only [dependsOnVisit] at hrun
    by_cases hdir : k2 ∈ lookup deps k1
    · exact Relation.TransGen.single hdir
    · rw [if_neg hdir] at hrun
      obtain ⟨c, hc, hp⟩ := foldSearch_sound deps k2 fuel ih
        (lookup deps k1) (insert k1 visited) v1 hrun
      exact Relation.TransGen.head (show depRel deps k1 c from hc) hp

/-- Soundness of `DependsOn`: a successful search yields a non-empty
dependency path. -/
lemma DependsOn_sound {deps : DepMap} {k1 k2 : String}
    (h : DependsOn k1 k2 deps = true) : Relation.TransGen (depRel deps) k1 k2 := by
  unfold DependsOn at h
  rcases hp : dependsOnVisit deps k2 ((insert k1 (allKeys deps)).card + 1) k1 ∅
    with ⟨b, out⟩
  rw [hp] at h
  simp only at h
  subst h
  exact dependsOnVisit_sound deps k2 _ k1 ∅ out hp

/-- In a finite set in which every element has a successor inside the set,
some element lies on a cycle. -/
lemma exists_mem_transGen_self (r : String → String → Prop) {S : Finset String}
    (hne : S.Nonempty) (hsucc : ∀ x ∈ S, ∃ y ∈ S, r x y) :
    ∃ k ∈ S, Relation.TransGen r k k := by
  obtain ⟨x0, hx0⟩ := hne
  have hstep : ∀ x : {x // x ∈ S}, ∃ y : {x // x ∈ S}, r x.1 y.1 := by
    intro x
    obtain ⟨y, hy, hr⟩ := hsucc x.1 x.2
    exact ⟨⟨y, hy⟩, hr⟩
  choose f hf using hstep
  let seq : Nat → {x // x ∈ S} := fun n => f^[n] ⟨x0, hx0⟩
  have hseqstep : ∀ n, r (seq n).1 (seq (n + 1)).1 := by
    intro n
    have : seq (n + 1) = f (seq n) := Function.iterate_succ_apply' f n ⟨x0, hx0⟩
    rw [this]
    exact hf (seq n)
  have hpath : ∀ i j, i < j → Relation.TransGen r (seq i).1 (seq j).1 := by
    intro i j hij
    induction j with
    | zero => omega
    | succ j ihj =>
      rcases Nat.lt_or_ge i j with hij2 | hij2
      · exact Relation.TransGen.tail (ihj hij2) (hseqstep j)
      · have : i = j := by omega
        subst this
        exact Relation.TransGen.single (hseqstep i)
  obtain ⟨i, j, hij, heq⟩ := Finite.exists_ne_map_eq_of_infinite seq
  rcases Nat.lt_or_ge i j with hlt | hge
  · refine ⟨(seq i).1, (seq i).2, ?_⟩
    have := hpath i j hlt
    rw [← heq] at this
    exact this
  · have hlt : j < i := by omega
    refine ⟨(seq j).1, (seq j).2, ?_⟩
    have := hpath j i hlt
    rw [heq] at this
    exact this

/-- `inSameSCC` is mutual reachability: the two keys are equal or each is
reachable from the other by a non-empty dependency path — membership in one
strongly-connected component of the dependency graph. -/
lemma inSameSCC_iff (deps : DepMap) (a b : String) :
    inSameSCC deps a b ↔
      a = b ∨ (Relation.TransGen (depRel deps) a b ∧
        Relation.TransGen (depRel deps) b a) := by
  unfold inSameSCC
  constructor
  · rintro (rfl | ⟨h1, h2⟩)
    · exact Or.inl rfl
    · exact Or.inr ⟨DependsOn_sound h1, DependsOn_sound h2⟩
  · rintro (rfl | ⟨h1, h2⟩)
    · exact Or.inl rfl
    · exact Or.inr ⟨DependsOn_complete h1, DependsOn_complete h2⟩

/-! ## Lemmas about the loop of `TopologicalOrder` -/

lemma contains_iff {l : List String} {a : String} : l.contains a = true ↔ a ∈ l :=
  List.elem_iff

/-- Well-formedness of a dependency map: the sets stored in a Go map have no
duplicate elements. -/
def DepsWF (deps : DepMap) : Prop :=
  ∀ p ∈ deps, p.2.Nodup

instance (deps : DepMap) : Decidable (DepsWF deps) := by
  unfold DepsWF; infer_instance

/-- The invariant tying the loop state of `TopologicalOrder` to its input:
`remains` is duplicate-free, the remaining dependency sets are
duplicate-free, and `remainsDeps[k]` holds exactly the dependencies of a
remaining `k` that still remain. -/
def LoopInv (deps : DepMap) (remains : KeySet) (rd : String → KeySet) : Prop :=
  remains.Nodup ∧ (∀ k, (rd k).Nodup) ∧
    (∀ k x, x ∈ rd k ↔ k ∈ remains ∧ x ∈ lookup deps k ∧ x ∈ remains)

lemma lookup_nodup {deps : DepMap} (hwf : DepsWF deps) (k : String) :
    (lookup deps k).Nodup := by
  unfold lookup
  cases hf : deps.find? (fun p => p.1 == k) with
  | none => simp
  | some p => exact hwf p (List.mem_of_find?_eq_some hf)

lemma LoopInv_init {keys : KeySet} {deps : DepMap} (hnd : keys.Nodup)
    (hwf : DepsWF deps) :
    LoopInv deps keys
      (fun key => if key ∈ keys then (lookup deps key).filter (fun x => keys.contains x)
        else []) := by
  refine ⟨hnd, ?_, ?_⟩
  · intro k
    by_cases hk : k ∈ keys
    · simpa [if_pos hk] using (lookup_nodup hwf k).filter _
    · simp [hk]
  · intro k x
    by_cases hk : k ∈ keys
    · simp only [if_pos hk, List.mem_filter, contains_iff]
      tauto
    · simp [hk]

lemma LoopInv_step {deps : DepMap} {remains : KeySet} {rd : String → KeySet}
    {key : String} (hinv : LoopInv deps remains rd) :
    LoopInv deps (remains.erase key)
      (fun k2 => if k2 = key then [] else (rd k2).erase key) := by
  obtain ⟨hnd, hrdnd, hmem⟩ := hinv
  refine ⟨hnd.erase key, ?_, ?_⟩
  · intro k
    by_cases hk : k = key
    · simp [hk]
    · simpa [hk] using (hrdnd k).erase key
  · intro k x
    by_cases hk : k = key
    · simp [hk, hnd.mem_erase_iff]
    · simp only [if_neg hk]
      rw [(hrdnd k).mem_erase_iff, hnd.mem_erase_iff, hnd.mem_erase_iff, hmem k x]
      tauto

lemma mem_ordCandidates_true {remains : KeySet} {rd : String → KeySet} {key : String} :
    key ∈ ordCandidates true remains rd ↔ key ∈ remains ∧ rd key = [] := by
  simp [ordCandidates, List.mem_filter, List.isEmpty_iff]

lemma mem_ordCandidates_false {remains : KeySet} {rd : String → KeySet} {key : String} :
    key ∈ ordCandidates false remains rd ↔
      key ∈ remains ∧ ∀ key2 ∈ remains, key ∉ rd key2 := by
  simp [ordCandidates, List.mem_filter, List.any_eq_true, contains_iff]

lemma mem_stepCandidates_remains {deps : DepMap} {depFirst : Bool}
    {remains : KeySet} {rd : String → KeySet} {key : String}
    (h : key ∈ stepCandidates deps depFirst remains rd) : key ∈ remains := by
  unfold stepCandidates at h
  by_cases h0 : (ordCandidates depFirst remains rd).isEmpty
  · rw [if_pos h0] at h
    exact (List.mem_filter.mp h).1
  · rw [if_neg h0] at h
    cases depFirst
    · exact (mem_ordCandidates_false.mp h).1
    · exact (mem_ordCandidates_true.mp h).1

lemma mem_stepCandidates_fallback {deps : DepMap} {depFirst : Bool}
    {remains : KeySet} {rd : String → KeySet} {key : String}
    (h0 : (ordCandidates depFirst remains rd).isEmpty = true)
    (h : key ∈ stepCandidates deps depFirst remains rd) :
    DependsOn key key deps = true := by
  unfold stepCandidates at h
  rw [if_pos h0] at h
  exact (List.mem_filter.mp h).2

/-- Destructor for a successful non-final loop iteration. -/
lemma topoLoop_succ_some {deps : DepMap} {depFirst handleCycle : Bool}
    {fuel : Nat} {remains : KeySet} {rd : String → KeySet} {out : List String}
    (h : topoLoop deps depFirst handleCycle (fuel + 1) remains rd = some out)
    (hne : remains.isEmpty = false) :
    ∃ key rest, out = key :: rest ∧
      listMin? (stepCandidates deps depFirst remains rd) = some key ∧
      topoLoop deps depFirst handleCycle fuel (remains.erase key)
        (fun key2 => if key2 = key then [] else (rd key2).erase key) = some rest := by
  rw [topoLoop] at h
  rw [hne] at h
  simp only [Bool.false_eq_true, if_false] at h
  by_cases hg : (ordCandidates depFirst remains rd).isEmpty = true ∧ ¬handleCycle = true
  · rw [if_pos hg] at h
    simp at h
  · rw [if_neg hg] at h
    cases hm : listMin? (stepCandidates deps depFirst remains rd) with
    | none =>
      rw [hm] at h
      simp at h
    | some key =>
      rw [hm] at h
      simp only [Option.map_eq_some'] at h
      obtain ⟨rest, hrest, hout⟩ := h
      exact ⟨key, rest, hout.symm, rfl, hrest⟩

/-- Every successful run of the loop emits exactly the remaining keys, each
once. -/
lemma topoLoop_perm {deps : DepMap} {depFirst handleCycle : Bool} :
    ∀ {fuel : Nat} {remains : KeySet} {rd : String → KeySet} {out : List String},
      remains.Nodup →
      topoLoop deps depFirst handleCycle fuel remains rd = some out →
      out.Nodup ∧ ∀ k, k ∈ out ↔ k ∈ remains := by
  intro fuel
  induction fuel with
  | zero =>
    intro remains rd out hnd h
    rw [topoLoop] at h
    by_cases he : remains.isEmpty
    · rw [if_pos he] at h
      obtain rfl : ([] : List String) = out := by simpa using h
      simp [List.isEmpty_iff.mp he]
    · rw [if_neg he] at h
      simp at h
  | succ fuel ih =>
    intro remains rd out hnd h
    by_cases he : remains.isEmpty
    · rw [topoLoop, if_pos he] at h
      obtain rfl : ([] : List String) = out := by simpa using h
      simp [List.isEmpty_iff.mp he]
    · obtain ⟨key, rest, rfl, hmin, hrest⟩ :=
        topoLoop_succ_some h (Bool.not_eq_true _ ▸ he)
      have hkey : key ∈ remains :=
        mem_stepCandidates_remains (listMin?_mem hmin)
      obtain ⟨hrnd, hriff⟩ := ih (hnd.erase key) hrest
      constructor
      · refine List.nodup_cons.mpr ⟨?_, hrnd⟩
        intro hk
        have := (hriff key).mp hk
        rw [hnd.mem_erase_iff] at this
        exact this.1 rfl
      · intro k
        rw [List.mem_cons, hriff k, hnd.mem_erase_iff]
        constructor
        · rintro (rfl | ⟨_, hk⟩)
          · exact hkey
          · exact hk
        · intro hk
          by_cases hkk : k = key
          · exact Or.inl hkk
          · exact Or.inr ⟨hkk, hk⟩

lemma ordCandidates_true_def (remains : KeySet) (rd : String → KeySet) :
    ordCandidates true remains rd = remains.filter (fun key => (rd key).isEmpty) := rfl

lemma ordCandidates_false_def (remains : KeySet) (rd : String → KeySet) :
    ordCandidates false remains rd =
      remains.filter (fun key => !(remains.any (fun key2 => (rd key2).contains key))) := rfl

/-- When there is no ordinary candidate, some remaining key depends on
itself: the cycle fallback cannot come up empty. -/
lemma fallback_nonempty {deps : DepMap} {depFirst : Bool} {remains : KeySet}
    {rd : String → KeySet} (hinv : LoopInv deps remains rd)
    (hne : remains ≠ [])
    (h0 : (ordCandidates depFirst remains rd).isEmpty = true) :
    remains.filter (fun key => DependsOn key key deps) ≠ [] := by
  have hSne : remains.toFinset.Nonempty := by
    obtain ⟨x, hx⟩ := List.exists_mem_of_ne_nil remains hne
    exact ⟨x, List.mem_toFinset.mpr hx⟩
  have hcyc : ∃ k ∈ remains.toFinset, Relation.TransGen (depRel deps) k k := by
    cases depFirst with
    | true =>
      rw [ordCandidates_true_def, List.isEmpty_iff] at h0
      apply exists_mem_transGen_self _ hSne
      intro x hx
      rw [List.mem_toFinset] at hx
      have hxne : ¬((rd x).isEmpty = true) := by
        simpa using List.filter_eq_nil_iff.mp h0 x hx
      rw [List.isEmpty_iff] at hxne
      obtain ⟨y, hy⟩ := List.exists_mem_of_ne_nil _ hxne
      obtain ⟨-, hylk, hyrem⟩ := (hinv.2.2 x y).mp hy
      exact ⟨y, List.mem_toFinset.mpr hyrem, hylk⟩
    | false =>
      rw [ordCandidates_false_def, List.isEmpty_iff] at h0
      have h2 := exists_mem_transGen_self (fun a b => depRel deps b a) hSne ?_
      · obtain ⟨k, hk, htg⟩ := h2
        exact ⟨k, hk, Relation.transGen_swap.mp htg⟩
      · intro x hx
        rw [List.mem_toFinset] at hx
        have hany : remains.any (fun key2 => (rd key2).contains x) = true := by
          have := List.filter_eq_nil_iff.mp h0 x hx
          simpa using this
        obtain ⟨key2, hk2, hk2c⟩ := List.any_eq_true.mp hany
        rw [contains_iff] at hk2c
        obtain ⟨hk2rem, hxlk, -⟩ := (hinv.2.2 key2 x).mp hk2c
        exact ⟨key2, List.mem_toFinset.mpr hk2rem, hxlk⟩
  obtain ⟨k, hk, htg⟩ := hcyc
  exact List.ne_nil_of_mem (List.mem_filter.mpr
    ⟨List.mem_toFinset.mp hk, DependsOn_complete htg⟩)

/-- With `handleCycle`, the loop never fails: there is always a candidate to
select, so the sort runs to completion. -/
lemma topoLoop_total {deps : DepMap} (depFirst : Bool) :
    ∀ {fuel : Nat} {remains : KeySet} {rd : String → KeySet},
      LoopInv deps remains rd → remains.length ≤ fuel →
      ∃ out, topoLoop deps depFirst true fuel remains rd = some out := by
  intro fuel
  induction fuel with
  | zero =>
    intro remains rd hinv hlen
    have hnil : remains = [] := List.length_eq_zero.mp (Nat.le_zero.mp hlen)
    subst hnil
    exact ⟨[], by rw [topoLoop]; simp⟩
  | succ fuel ih =>
    intro remains rd hinv hlen
    by_cases he : remains.isEmpty
    · exact ⟨[], by rw [topoLoop, if_pos he]⟩
    · have hne : remains ≠ [] := fun hc => he (by simp [hc])
      have hcand : stepCandidates deps depFirst remains rd ≠ [] := by
        unfold stepCandidates
        by_cases h0 : (ordCandidates depFirst remains rd).isEmpty
        · rw [if_pos h0]
          exact fallback_nonempty hinv hne h0
        · rw [if_neg h0]
          exact fun hc => h0 (by simp [hc])
      obtain ⟨key, hmin⟩ : ∃ key,
          listMin? (stepCandidates deps depFirst remains rd) = some key := by
        cases hm : listMin? (stepCandidates deps depFirst remains rd) with
        | none => exact absurd ((listMin?_eq_none_iff _).mp hm) hcand
        | some k => exact ⟨k, rfl⟩
      have hkey : key ∈ remains := mem_stepCandidates_remains (listMin?_mem hmin)
      have hlen2 : (remains.erase key).length ≤ fuel := by
        rw [List.length_erase_of_mem hkey]
        have : 0 < remains.length := List.length_pos.mpr hne
        omega
      obtain ⟨rest, hrest⟩ := ih (LoopInv_step hinv) hlen2
      refine ⟨key :: rest, ?_⟩
      rw [topoLoop, if_neg he, if_neg (by simp), hmin]
      simp only [Option.map_eq_some']
      exact ⟨rest, hrest, rfl⟩

/-- With `depFirst`, a key that does not lie on any dependency cycle is
emitted only after each of its dependencies inside the remaining set. -/
lemma topoLoop_depFirst_order {deps : DepMap} {handleCycle : Bool} :
    ∀ {fuel : Nat} {remains : KeySet} {rd : String → KeySet} {out : List String},
      LoopInv deps remains rd →
      topoLoop deps true handleCycle fuel remains rd = some out →
      ∀ a b, a ∈ lookup deps b → a ∈ remains → b ∈ remains →
        DependsOn b b deps = false →
        out.indexOf a < out.indexOf b := by
  intro fuel
  induction fuel with
  | zero =>
    intro remains rd out hinv h a b hab ha hb hnd
    rw [topoLoop] at h
    by_cases he : remains.isEmpty
    · rw [List.isEmpty_iff.mp he] at ha
      simp at ha
    · rw [if_neg he] at h
      simp at h
  | succ fuel ih =>
    intro remains rd out hinv h a b hab ha hb hnd
    have hane : a ≠ b := by
      rintro rfl
      rw [DependsOn_complete (Relation.TransGen.single hab)] at hnd
      exact Bool.true_eq_false ▸ hnd
    by_cases he : remains.isEmpty
    · rw [List.isEmpty_iff.mp he] at ha
      simp at ha
    · obtain ⟨key, rest, rfl, hmin, hrest⟩ :=
        topoLoop_succ_some h (Bool.not_eq_true _ ▸ he)
      have hkeyc := listMin?_mem hmin
      have hkb : key ≠ b := by
        rintro rfl
        unfold stepCandidates at hkeyc
        by_cases h0 : (ordCandidates true remains rd).isEmpty
        · rw [mem_stepCandidates_fallback h0 (by unfold stepCandidates; exact hkeyc)] at hnd
          exact Bool.true_eq_false ▸ hnd
        · rw [if_neg h0] at hkeyc
          have hc := mem_ordCandidates_true.mp hkeyc
          have hard : a ∈ rd key := (hinv.2.2 key a).mpr ⟨hb, hab, ha⟩
          rw [hc.2] at hard
          simp at hard
      by_cases hka : key = a
      · subst hka
        rw [List.indexOf_cons_self, List.indexOf_cons_ne _ hkb]
        exact Nat.succ_pos _
      · have ha2 : a ∈ remains.erase key :=
          (hinv.1.mem_erase_iff).mpr ⟨fun hc => hka hc.symm, ha⟩
        have hb2 : b ∈ remains.erase key :=
          (hinv.1.mem_erase_iff).mpr ⟨fun hc => hkb hc.symm, hb⟩
        have := ih (LoopInv_step hinv) hrest a b hab ha2 hb2 hnd
        rw [List.indexOf_cons_ne _ hka, List.indexOf_cons_ne _ hkb]
        omega

/-- Without `depFirst`, a key that does not lie on any dependency cycle is
emitted only after each remaining key that depends on it. -/
lemma topoLoop_depLast_order {deps : DepMap} {handleCycle : Bool} :
    ∀ {fuel : Nat} {remains : KeySet} {rd : String → KeySet} {out : List String},
      LoopInv deps remains rd →
      topoLoop deps false handleCycle fuel remains rd = some out →
      ∀ a b, a ∈ lookup deps b → a ∈ remains → b ∈ remains →
        DependsOn a a deps = false →
        out.indexOf b < out.indexOf a := by
  intro fuel
  induction fuel with
  | zero =>
    intro remains rd out hinv h a b hab ha hb hnd
    rw [topoLoop] at h
    by_cases he : remains.isEmpty
    · rw [List.isEmpty_iff.mp he] at ha
      simp at ha
    · rw [if_neg he] at h
      simp at h
  | succ fuel ih =>
    intro remains rd out hinv h a b hab ha hb hnd
    have hane : a ≠ b := by
      rintro rfl
      rw [DependsOn_complete (Relation.TransGen.single hab)] at hnd
      exact Bool.true_eq_false ▸ hnd
    by_cases he : remains.isEmpty
    · rw [List.isEmpty_iff.mp he] at ha
      simp at ha
    · obtain ⟨key, rest, rfl, hmin, hrest⟩ :=
        topoLoop_succ_some h (Bool.not_eq_true _ ▸ he)
      have hkeyc := listMin?_mem hmin
      have hka : key ≠ a := by
        rintro rfl
        unfold stepCandidates at hkeyc
        by_cases h0 : (ordCandidates false remains rd).isEmpty
        · rw [mem_stepCandidates_fallback h0 (by unfold stepCandidates; exact hkeyc)] at hnd
          exact Bool.true_eq_false ▸ hnd
        · rw [if_neg h0] at hkeyc
          have hc := mem_ordCandidates_false.mp hkeyc
          have hard : key ∈ rd b := (hinv.2.2 b key).mpr ⟨hb, hab, ha⟩
          exact hc.2 b hb hard
      by_cases hkb : key = b
      · subst hkb
        rw [List.indexOf_cons_self, List.indexOf_cons_ne _ hka]
        exact Nat.succ_pos _
      · have ha2 : a ∈ remains.erase key :=
          (hinv.1.mem_erase_iff).mpr ⟨fun hc => hka hc.symm, ha⟩
        have hb2 : b ∈ remains.erase key :=
          (hinv.1.mem_erase_iff).mpr ⟨fun hc => hkb hc.symm, hb⟩
        have := ih (LoopInv_step hinv) hrest a b hab ha2 hb2 hnd
        rw [List.indexOf_cons_ne _ hka, List.indexOf_cons_ne _ hkb]
        omega

/-! ## Claim theorems for the topological sort -/

/-- A key set and dependency map on which the literal claim C1 fails: the
key set is `{a, y, z}`; `a` depends on `y` and on the outside key `w`, which
depends back on `a`; `y` and `z` form a strongly-connected component.  With
`depFirst` every remaining key has remaining dependencies, so the cycle
fallback fires; `a` passes the `DependsOn(a, a)` test through the outside
key `w` and is emitted first, before its dependency `y`, although `a` and
`y` do not lie in one strongly-connected component. -/
def cexKeys : KeySet := ["a", "y", "z"]

/-- The dependency map of the C1 counterexample. -/
def cexDeps : DepMap := [("a", ["w", "y"]), ("y", ["z"]), ("z", ["y"]), ("w", ["a"])]

/-- Claim C1, as stated, is false: the edge `y → a` of the dependency map
(`a` depends on `y`) has both ends in the key set and does not lie within
one strongly-connected component, yet with `depFirst = true` and
`handleCycle = true` the key `y` does not precede `a` in the output. -/
theorem TopologicalOrder_edge_order_counterexample :
    "y" ∈ lookup cexDeps "a" ∧ "y" ∈ cexKeys ∧ "a" ∈ cexKeys ∧
      ¬ inSameSCC cexDeps "y" "a" ∧
      TopologicalOrder cexKeys cexDeps true true = some ["a", "y", "z"] ∧
      ¬ (["a", "y", "z"].indexOf "y" < ["a", "y", "z"].indexOf "a") := by
  refine ⟨by decide, by decide, by decide, by decide, by decide, by decide⟩

/-- Amended claim C1: for an edge of the dependency map from `a` (the
dependee) to its dependent `b` (that is, `a ∈ deps[b]`), both inside the
key set, `TopologicalOrder` with `handleCycle = true` emits `a` before `b`
when `depFirst = true` provided the dependent `b` does not lie on any
dependency cycle of the full map (`DependsOn(b, b)` is false), and emits
`b` before `a` when `depFirst = false` provided `a` does not lie on any
dependency cycle.  (The claim's original exception — `a` and `b` inside one
strongly-connected component — is narrower: a key lying on a cycle through
keys outside the key set can also be emitted early by the cycle fallback,
as the counterexample shows.) -/
theorem TopologicalOrder_edge_order (keys : KeySet) (deps : DepMap)
    (depFirst : Bool) (out : List String)
    (hnd : keys.Nodup) (hwf : DepsWF deps)
    (hrun : TopologicalOrder keys deps depFirst true = some out)
    (a b : String) (hab : a ∈ lookup deps b) (ha : a ∈ keys) (hb : b ∈ keys) :
    (depFirst = true → DependsOn b b deps = false →
      out.indexOf a < out.indexOf b) ∧
    (depFirst = false → DependsOn a a deps = false →
      out.indexOf b < out.indexOf a) := by
  unfold TopologicalOrder at hrun
  constructor
  · rintro rfl hndep
    exact topoLoop_depFirst_order (LoopInv_init hnd hwf) hrun a b hab ha hb hndep
  · rintro rfl hndep
    exact topoLoop_depLast_order (LoopInv_init hnd hwf) hrun a b hab ha hb hndep

/-- Witness for the amended claim C1 at a concrete input: keys `{u, v}`,
`v` depends on `u`, no cycles; with `depFirst` the output is `[u, v]` and
`u` precedes `v`. -/
theorem TopologicalOrder_edge_order_witness :
    (["u", "v"].indexOf "u" < ["u", "v"].indexOf "v") ∧
      (["v", "u"].indexOf "v" < ["v", "u"].indexOf "u") :=
  ⟨(TopologicalOrder_edge_order ["u", "v"] [("v", ["u"])] true ["u", "v"]
      (by decide) (by decide) (by decide) "u" "v" (by decide) (by decide)
      (by decide)).1 rfl (by decide),
    (TopologicalOrder_edge_order ["u", "v"] [("v", ["u"])] false ["v", "u"]
      (by decide) (by decide) (by decide) "u" "v" (by decide) (by decide)
      (by decide)).2 rfl (by decide)⟩

/-- Claim C3: with `handleCycle = true`, `TopologicalOrder` always succeeds
(no step fails — in particular the cycle fallback never comes up empty) and
returns a list holding every input key exactly once. -/
theorem TopologicalOrder_total_perm (keys : KeySet) (deps : DepMap)
    (depFirst : Bool) (hnd : keys.Nodup) (hwf : DepsWF deps) :
    ∃ out, TopologicalOrder keys deps depFirst true = some out ∧
      ∀ k, out.count k = if k ∈ keys then 1 else 0 := by
  obtain ⟨out, hout⟩ :=
    topoLoop_total depFirst (LoopInv_init hnd hwf) (le_refl keys.length)
  refine ⟨out, hout, ?_⟩
  obtain ⟨hodup, hmem⟩ := topoLoop_perm hnd hout
  intro k
  by_cases hk : k ∈ keys
  · rw [if_pos hk]
    exact List.count_eq_one_of_mem hodup ((hmem k).mpr hk)
  · rw [if_neg hk]
    exact List.count_eq_zero.mpr (fun hc => hk ((hmem k).mp hc))

/-- Witness for claim C3 at a concrete input containing a dependency cycle
inside the key set. -/
theorem TopologicalOrder_total_perm_witness :
    ∃ out, TopologicalOrder ["u", "v"] [("u", ["v"]), ("v", ["u"])] true true
        = some out ∧
      ∀ k, out.count k = if k ∈ ["u", "v"] then 1 else 0 :=
  TopologicalOrder_total_perm ["u", "v"] [("u", ["v"]), ("v", ["u"])] true
    (by decide) (by decide)

/-- Claim C4: whenever a loop iteration of `TopologicalOrder` emits a key,
that key belongs to the candidate set of the iteration and is the
lexicographically least of all candidates (`sort.Strings` followed by
`candidates[0]`), and the rest of the output is produced by the loop on the
remaining state — so the output is a deterministic function of the
arguments. -/
theorem topoLoop_selects_lexicographic_min (deps : DepMap)
    (depFirst handleCycle : Bool) (fuel : Nat) (remains : KeySet)
    (rd : String → KeySet) (key : String) (rest : List String)
    (hrun : topoLoop deps depFirst handleCycle (fuel + 1) remains rd
      = some (key :: rest)) :
    key ∈ stepCandidates deps depFirst remains rd ∧
      (∀ c ∈ stepCandidates deps depFirst remains rd, key ≤ c) ∧
      topoLoop deps depFirst handleCycle fuel (remains.erase key)
        (fun key2 => if key2 = key then [] else (rd key2).erase key)
        = some rest := by
  by_cases he : remains.isEmpty
  · rw [topoLoop, if_pos he] at hrun
    simp at hrun
  · obtain ⟨key2, rest2, heq, hmin, hrest⟩ :=
      topoLoop_succ_some hrun (Bool.not_eq_true _ ▸ he)
    obtain ⟨rfl, rfl⟩ : key2 = key ∧ rest2 = rest := by
      have := heq.symm
      simp only [List.cons.injEq] at this
      exact this
    exact ⟨listMin?_mem hmin, listMin?_le hmin, hrest⟩

/-- Witness for claim C4 at a concrete iteration with two candidates;
`u` is selected. -/
theorem topoLoop_selects_lexicographic_min_witness :
    "u" ∈ stepCandidates [] true ["v", "u"] (fun _ => []) ∧
      (∀ c ∈ stepCandidates [] true ["v", "u"] (fun _ => []), "u" ≤ c) ∧
      topoLoop [] true true 1 (["v", "u"].erase "u")
        (fun key2 => if key2 = "u" then [] else (([] : KeySet).erase "u"))
        = some ["v"] := by
  have h := topoLoop_selects_lexicographic_min [] true true 1 ["v", "u"]
    (fun _ => []) "u" ["v"] (by decide)
  exact h

/-- Claim C5: when a loop iteration of `TopologicalOrder` with
`handleCycle = true` finds no ordinary candidate, the key it selects
satisfies `DependsOn(key, key, deps)` — it is reachable from itself by a
non-empty dependency path, i.e. it participates in a dependency cycle. -/
theorem topoLoop_cycle_fallback_selects_cyclic (deps : DepMap)
    (depFirst : Bool) (fuel : Nat) (remains : KeySet) (rd : String → KeySet)
    (key : String) (rest : List String)
    (h0 : (ordCandidates depFirst remains rd).isEmpty = true)
    (hrun : topoLoop deps depFirst true (fuel + 1) remains rd
      = some (key :: rest)) :
    DependsOn key key deps = true ∧ Relation.TransGen (depRel deps) key key := by
  by_cases he : remains.isEmpty
  · rw [topoLoop, if_pos he] at hrun
    simp at hrun
  · obtain ⟨key2, rest2, heq, hmin, hrest⟩ :=
      topoLoop_succ_some hrun (Bool.not_eq_true _ ▸ he)
    obtain ⟨rfl, -⟩ : key2 = key ∧ rest2 = rest := by
      have := heq.symm
      simp only [List.cons.injEq] at this
      exact this
    have hdep := mem_stepCandidates_fallback h0 (listMin?_mem hmin)
    exact ⟨hdep, DependsOn_sound hdep⟩

/-- Witness for claim C5 at a concrete two-key cycle: the fallback selects
`u`, which depends on itself through `v`. -/
theorem topoLoop_cycle_fallback_selects_cyclic_witness :
    DependsOn "u" "u" [("u", ["v"]), ("v", ["u"])] = true ∧
      Relation.TransGen (depRel [("u", ["v"]), ("v", ["u"])]) "u" "u" :=
  topoLoop_cycle_fallback_selects_cyclic [("u", ["v"]), ("v", ["u"])] true 1
    ["u", "v"] (fun k => if k = "u" then ["v"] else ["u"]) "u" ["v"]
    (by decide) (by decide)

/-! ## Claim theorems for the descriptor handler -/

/-- Claim C7: `retriableFailure` is false on the three unimplemented
sentinels no matter what the descriptor declares, and true on every other
error when the descriptor leaves `RetriableFailure` undefined. -/
theorem descriptorHandler_retriableFailure_spec {Msg Meta : Type}
    (h : descriptorHandler Msg Meta) (err : Err) :
    ((err = Err.ErrUnimplementedAdd ∨ err = Err.ErrUnimplementedModify ∨
        err = Err.ErrUnimplementedDelete) →
      h.retriableFailure err = false) ∧
    ((err ≠ Err.ErrUnimplementedAdd ∧ err ≠ Err.ErrUnimplementedModify ∧
        err ≠ Err.ErrUnimplementedDelete) →
      (∀ d, h.descriptor = some d → d.RetriableFailure = none) →
      h.retriableFailure err = true) := by
  constructor
  · intro herr
    rcases herr with rfl | rfl | rfl <;> rfl
  · intro herr hund
    have hcont : [Err.ErrUnimplementedAdd, Err.ErrUnimplementedModify,
        Err.ErrUnimplementedDelete].contains err = false := by
      have h1 : (err == Err.ErrUnimplementedAdd) = false := beq_false_of_ne herr.1
      have h2 : (err == Err.ErrUnimplementedModify) = false := beq_false_of_ne herr.2.1
      have h3 : (err == Err.ErrUnimplementedDelete) = false := beq_false_of_ne herr.2.2
      simp only [List.contains, List.elem_cons, List.elem_nil, h1, h2, h3]
    cases hd : h.descriptor with
    | none =>
      simp only [descriptorHandler.retriableFailure, NonRetriableIfInTheList, hcont, hd,
        Bool.not_false, if_neg (by simp : ¬(true = false))]
    | some d =>
      simp only [descriptorHandler.retriableFailure, NonRetriableIfInTheList, hcont, hd,
        Bool.not_false, if_neg (by simp : ¬(true = false)), hund d hd]

/-- Witness for claim C7: with no descriptor-defined `RetriableFailure`,
`ErrUnimplementedAdd` is non-retriable and an arbitrary other error is
retriable. -/
theorem descriptorHandler_retriableFailure_spec_witness :
    descriptorHandler.retriableFailure
        (⟨some {}⟩ : descriptorHandler Nat Nat) Err.ErrUnimplementedAdd = false ∧
      descriptorHandler.retriableFailure
        (⟨some {}⟩ : descriptorHandler Nat Nat) (Err.other 0) = true :=
  ⟨(descriptorHandler_retriableFailure_spec ⟨some {}⟩ Err.ErrUnimplementedAdd).1
      (Or.inl rfl),
    (descriptorHandler_retriableFailure_spec ⟨some {}⟩ (Err.other 0)).2
      (by simp) (fun d hd => by cases hd; rfl)⟩

/-- Claim C8: when the descriptor omits `Add` (respectively `Modify`,
`Delete`), the handler's operation returns the matching unimplemented error
without invoking any callback — the results below are constants in every
other field of the descriptor — and `modify` hands back the old metadata
unchanged alongside the error. -/
theorem descriptorHandler_unimplemented_defaults {Msg Meta : Type}
    (d : KVDescriptor Msg Meta) (key : String) (v oldV newV : Msg)
    (m : Option Meta) :
    (d.Add = none →
      descriptorHandler.add ⟨some d⟩ key v = (none, some Err.ErrUnimplementedAdd)) ∧
    (d.Modify = none →
      descriptorHandler.modify ⟨some d⟩ key oldV newV m
        = (m, some Err.ErrUnimplementedModify)) ∧
    (d.Delete = none →
      descriptorHandler.delete ⟨some d⟩ key v m
        = some Err.ErrUnimplementedDelete) := by
  refine ⟨fun ha => ?_, fun hm => ?_, fun hd => ?_⟩
  · simp [descriptorHandler.add, ha]
  · simp [descriptorHandler.modify, hm]
  · simp [descriptorHandler.delete, hd]

/-- Witness for claim C8 on the empty descriptor. -/
theorem descriptorHandler_unimplemented_defaults_witness :
    (descriptorHandler.add (⟨some {}⟩ : descriptorHandler Nat Nat) "k" 1
        = (none, some Err.ErrUnimplementedAdd)) ∧
      (descriptorHandler.modify (⟨some {}⟩ : descriptorHandler Nat Nat) "k" 1 2
          (some 7) = (some 7, some Err.ErrUnimplementedModify)) ∧
      (descriptorHandler.delete (⟨some {}⟩ : descriptorHandler Nat Nat) "k" 1
          (some 7) = some Err.ErrUnimplementedDelete) :=
  ⟨(descriptorHandler_unimplemented_defaults {} "k" 1 1 2 (some 7)).1 rfl,
    (descriptorHandler_unimplemented_defaults {} "k" 1 1 2 (some 7)).2.1 rfl,
    (descriptorHandler_unimplemented_defaults {} "k" 1 1 2 (some 7)).2.2 rfl⟩

/-- Claim C9: without a descriptor-defined `ValueComparator`, the handler
compares values by `proto.Equal`, i.e. structural equality of the two
messages. -/
theorem descriptorHandler_equivalentValues_default {Msg Meta : Type}
    [DecidableEq Msg] (d : KVDescriptor Msg Meta) (key : String) (v1 v2 : Msg)
    (hvc : d.ValueComparator = none) :
    descriptorHandler.equivalentValues ⟨some d⟩ key v1 v2 = protoEqual v1 v2 ∧
      (descriptorHandler.equivalentValues ⟨some d⟩ key v1 v2 = true ↔ v1 = v2) := by
  have heq : descriptorHandler.equivalentValues ⟨some d⟩ key v1 v2
      = protoEqual v1 v2 := by
    simp [descriptorHandler.equivalentValues, hvc]
  refine ⟨heq, ?_⟩
  rw [heq]
  unfold protoEqual
  exact decide_eq_true_iff

/-- Witness for claim C9 on the empty descriptor. -/
theorem descriptorHandler_equivalentValues_default_witness :
    descriptorHandler.equivalentValues
        (⟨some {}⟩ : descriptorHandler Nat Nat) "k" 3 3 = protoEqual 3 3 ∧
      (descriptorHandler.equivalentValues
          (⟨some {}⟩ : descriptorHandler Nat Nat) "k" 3 3 = true ↔ (3 : Nat) = 3) :=
  descriptorHandler_equivalentValues_default {} "k" 3 3 rfl

/-! ## Claim theorems for node readiness -/

/-- At the source node, the inner target loop of `isNodeReadyRec` leaves a
dependency label satisfied exactly when it was already satisfied or some
listed target is not being removed and is non-pending or closes a cycle with
the source. -/
lemma depGroupLoop_src_spec (g : Graph) (srcKey : String) (visited : Finset String)
    (visit : Nat → Bool) :
    ∀ (ts : List Nat) (satisfied cycle : Bool),
      (depGroupLoop g srcKey srcKey visited visit ts satisfied cycle).1 = true ↔
        (satisfied = true ∨ ∃ t ∈ ts, isNodeBeingRemoved g t = false ∧
          (isNodePending g t = false ∨ (g.node t).key = srcKey ∨
            ((g.node t).key ∉ visited ∧ visit t = true))) := by
  intro ts
  induction ts with
  | nil =>
    intro satisfied cycle
    simp [depGroupLoop]
  | cons t ts ih =>
    intro satisfied cycle
    rw [depGroupLoop]
    by_cases hrem : isNodeBeingRemoved g t
    · rw [if_pos hrem, ih]
      constructor
      · rintro (hs | ⟨t2, ht2, hc⟩)
        · exact Or.inl hs
        · exact Or.inr ⟨t2, List.mem_cons_of_mem t ht2, hc⟩
      · rintro (hs | ⟨t2, ht2, hc⟩)
        · exact Or.inl hs
        · rcases List.mem_cons.mp ht2 with rfl | ht3
          · rw [hrem] at hc
            simp at hc
          · exact Or.inr ⟨t2, ht3, hc⟩
    · rw [if_neg hrem]
      rw [Bool.not_eq_true] at hrem
      by_cases hp : isNodePending g t = false
      · rw [if_pos ⟨hp, rfl⟩]
        simp only [hp, if_pos rfl]
        constructor
        · intro _
          exact Or.inr ⟨t, List.mem_cons_self t ts, hrem, Or.inl hp⟩
        · intro _
          rfl
      · rw [if_neg (fun hc => hp hc.1)]
        by_cases hcyc : (g.node t).key = srcKey ∨ ((g.node t).key ∉ visited ∧ visit t = true)
        · rw [if_pos hcyc]
          simp only [true_iff]
          exact Or.inr ⟨t, List.mem_cons_self t ts, hrem, Or.inr hcyc⟩
        · rw [if_neg hcyc, ih]
          have hsat1 : (if isNodePending g t = false then true else satisfied) = satisfied := by
            rw [if_neg hp]
          rw [hsat1]
          constructor
          · rintro (hs | ⟨t2, ht2, hc⟩)
            · exact Or.inl hs
            · exact Or.inr ⟨t2, List.mem_cons_of_mem t ht2, hc⟩
          · rintro (hs | ⟨t2, ht2, hc⟩)
            · exact Or.inl hs
            · rcases List.mem_cons.mp ht2 with rfl | ht3
              · rcases hc.2 with hcp | hccyc
                · exact absurd hcp hp
                · exact absurd hccyc hcyc
              · exact Or.inr ⟨t2, ht3, hc⟩

/-- At the source node, the outer label loop of `isNodeReadyRec` returns
true exactly when every dependency label has a satisfying target. -/
lemma depGroupsLoop_src_spec (g : Graph) (srcKey : String) (visited : Finset String)
    (visit : Nat → Bool) :
    ∀ (grps : List (List Nat)) (cycle : Bool),
      depGroupsLoop g srcKey srcKey visited visit grps cycle = true ↔
        ∀ grp ∈ grps, ∃ t ∈ grp, isNodeBeingRemoved g t = false ∧
          (isNodePending g t = false ∨ (g.node t).key = srcKey ∨
            ((g.node t).key ∉ visited ∧ visit t = true)) := by
  intro grps
  induction grps with
  | nil =>
    intro cycle
    simp [depGroupsLoop]
  | cons grp grps ih =>
    intro cycle
    rw [depGroupsLoop]
    rcases hs : depGroupLoop g srcKey srcKey visited visit grp false cycle with ⟨sat, cycle1⟩
    cases sat with
    | false =>
      simp only [Bool.false_eq_true, false_iff]
      intro hall
      have hgrp := hall grp (List.mem_cons_self grp grps)
      have := (depGroupLoop_src_spec g srcKey visited visit grp false cycle).mpr
        (Or.inr hgrp)
      rw [hs] at this
      simp at this
    | true =>
      rw [ih cycle1]
      have hgrp : ∃ t ∈ grp, isNodeBeingRemoved g t = false ∧
          (isNodePending g t = false ∨ (g.node t).key = srcKey ∨
            ((g.node t).key ∉ visited ∧ visit t = true)) := by
        have := (depGroupLoop_src_spec g srcKey visited visit grp false cycle).mp
          (by rw [hs])
        rcases this with hfalse | hex
        · simp at hfalse
        · exact hex
      constructor
      · intro hall grp2 hgrp2
        rcases List.mem_cons.mp hgrp2 with rfl | hgrp3
        · exact hgrp
        · exact hall grp2 hgrp3
      · intro hall grp2 hgrp2
        exact hall grp2 (List.mem_cons_of_mem grp hgrp2)

/-- Claim C2: for a node whose origin is not `FromSB`, `isNodeReady` returns
true exactly when every dependency label of the node has at least one target
that is not being removed and is either non-pending or closes a
strongly-connected component with the node, as detected by the depth-first
search of `isNodeReadyRec` returning to the source. -/
theorem isNodeReady_spec (g : Graph) (n : Nat)
    (hsb : getNodeOrigin g n ≠ ValueOrigin.FromSB) :
    isNodeReady g n = true ↔
      ∀ grp ∈ (g.node n).depTargets, ∃ t ∈ grp,
        isNodeBeingRemoved g t = false ∧
          (isNodePending g t = false ∨ sameSccByDfs g n t) := by
  unfold isNodeReady
  rw [if_neg hsb, isNodeReadyRec, depGroupsLoop_src_spec]
  constructor
  · intro hall grp hgrp
    obtain ⟨t, ht, hrem, hc⟩ := hall grp hgrp
    refine ⟨t, ht, hrem, ?_⟩
    rcases hc with hp | hkey | ⟨hnv, hvis⟩
    · exact Or.inl hp
    · exact Or.inr (Or.inl hkey)
    · refine Or.inr (Or.inr ⟨?_, hvis⟩)
      intro hc2
      exact hnv (by simp [hc2])
  · intro hall grp hgrp
    obtain ⟨t, ht, hrem, hc⟩ := hall grp hgrp
    refine ⟨t, ht, hrem, ?_⟩
    rcases hc with hp | hkey | ⟨hne, hvis⟩
    · exact Or.inl hp
    · exact Or.inr (Or.inl hkey)
    · exact Or.inr (Or.inr ⟨by simp [hne], hvis⟩)

/-- Witness for claim C2: a non-SB node whose single dependency label lists
a non-pending target is ready. -/
theorem isNodeReady_spec_witness :
    isNodeReady
      ⟨[{ key := "a", depTargets := [[1]] },
        { key := "b" }]⟩ 0 = true :=
  (isNodeReady_spec ⟨[{ key := "a", depTargets := [[1]] }, { key := "b" }]⟩ 0
    (by decide)).mpr (by decide)

/-- Claim C6: a node with origin `FromSB` is ready without its dependency
relations being evaluated — the result is true for every graph, and in
particular whatever the node's dependency targets are. -/
theorem isNodeReady_fromSB (g : Graph) (n : Nat)
    (h : getNodeOrigin g n = ValueOrigin.FromSB) : isNodeReady g n = true := by
  unfold isNodeReady
  rw [if_pos h]

/-- Witness for claim C6: an SB node with an unsatisfied (pending,
self-referencing) dependency is nevertheless ready. -/
theorem isNodeReady_fromSB_witness :
    isNodeReady
      ⟨[{ key := "a", originFlag := some ValueOrigin.FromSB,
          pendingFlag := true, depTargets := [[0]] }]⟩ 0 = true :=
  isNodeReady_fromSB
    ⟨[{ key := "a", originFlag := some ValueOrigin.FromSB,
        pendingFlag := true, depTargets := [[0]] }]⟩ 0 (by decide)

/-! ## Frame property of the heap model (claim C10)

`TopologicalOrder` only ever writes to the cells it allocates itself — the
deep copy of the key set and the per-key intersections — so every cell that
existed before the call, in particular the caller's key set and dependency
sets, is unchanged afterwards. -/

lemma Heap.read_write_ne (h : Heap) (r r2 : Nat) (s : KeySet) (hne : r2 ≠ r) :
    (h.write r s).read r2 = h.read r2 := by
  simp [Heap.write, Heap.read, hne]

lemma Heap.alloc_next (h : Heap) (s : KeySet) : (h.alloc s).2.next = h.next + 1 :=
  rfl

lemma Heap.read_alloc_lt (h : Heap) (s : KeySet) (r2 : Nat) (hlt : r2 < h.next) :
    (h.alloc s).2.read r2 = h.read r2 := by
  have hne : ¬(r2 = h.next) := by omega
  simp only [Heap.alloc, Heap.read]
  rw [if_neg hne]

lemma foldl_delH_frame (key : String) :
    ∀ (l : List (String × Nat)) (h : Heap) (r : Nat), (∀ p ∈ l, r ≠ p.2) →
      (l.foldl (fun hh p => delH hh p.2 key) h).read r = h.read r := by
  intro l
  induction l with
  | nil => intro h r _; rfl
  | cons p l ih =>
    intro h r hne
    simp only [List.foldl_cons]
    rw [ih (delH h p.2 key) r (fun q hq => hne q (List.mem_cons_of_mem p hq))]
    exact Heap.read_write_ne h p.2 r _ (hne p (List.mem_cons_self p l))

/-- The loop of the heap model writes only to the remaining-set cell and the
remaining-dependency cells; every cell below `n` is untouched when those
references are at least `n`. -/
lemma topoLoopH_frame (deps : List (String × Nat)) (depFirst handleCycle : Bool)
    (n : Nat) :
    ∀ (fuel : Nat) (h : Heap) (remainsRef : Nat) (rdA : List (String × Nat)),
      n ≤ remainsRef → (∀ p ∈ rdA, n ≤ p.2) →
      ∀ r, r < n →
        (topoLoopH deps depFirst handleCycle fuel h remainsRef rdA).2.read r
          = h.read r := by
  intro fuel
  induction fuel with
  | zero =>
    intro h remainsRef rdA _ _ r _
    rfl
  | succ fuel ih =>
    intro h remainsRef rdA hrr hrd r hr
    rw [topoLoopH]
    by_cases he : (h.read remainsRef).isEmpty
    · rw [if_pos he]
    · rw [if_neg he]
      by_cases hg : (ordCandidatesH depFirst h (h.read remainsRef) rdA).isEmpty = true
          ∧ ¬handleCycle = true
      · rw [if_pos hg]
      · rw [if_neg hg]
        rcases hm : listMin? (stepCandidatesH deps depFirst h (h.read remainsRef) rdA)
          with _ | key
        · rfl
        · have hrdA1 : ∀ p ∈ rdA.filter (fun q => q.1 != key), n ≤ p.2 :=
            fun p hp => hrd p (List.mem_of_mem_filter hp)
          have hrne : ∀ p ∈ rdA.filter (fun q => q.1 != key), r ≠ p.2 := by
            intro p hp
            have hnp := hrdA1 p hp
            omega
          have hrrne : r ≠ remainsRef := by omega
          show (topoLoopH deps depFirst handleCycle fuel _ remainsRef _).2.read r
            = h.read r
          rw [ih _ remainsRef _ hrr hrdA1 r hr]
          rw [foldl_delH_frame key _ _ r hrne]
          exact Heap.read_write_ne h remainsRef r _ hrrne

/-- The entry-building loop of the initialisation allocates only fresh
cells: the allocation counter never decreases, cells below the starting
counter keep their contents, the remaining-set reference passes through,
and every produced dependency reference is at least the starting counter. -/
lemma topoInitGo_inv (keysRef : Nat) (n : Nat) :
    ∀ (l : List (String × Nat)) (remainsRef : Nat) (rdA : List (String × Nat))
      (h : Heap), n ≤ h.next → (∀ p ∈ rdA, n ≤ p.2) →
      n ≤ (topoInitGo keysRef l remainsRef rdA h).2.next ∧
        (∀ r, r < n → (topoInitGo keysRef l remainsRef rdA h).2.read r = h.read r) ∧
        (topoInitGo keysRef l remainsRef rdA h).1.1 = remainsRef ∧
        (∀ p ∈ (topoInitGo keysRef l remainsRef rdA h).1.2, n ≤ p.2) := by
  intro l
  induction l with
  | nil =>
    intro remainsRef rdA h hnext hmem
    exact ⟨hnext, fun r _ => rfl, rfl, hmem⟩
  | cons q l ih =>
    intro remainsRef rdA h hnext hmem
    rw [topoInitGo]
    by_cases hc : (h.read keysRef).contains q.1
    · rw [if_pos hc]
      have hnext2 : n ≤ (intersectH h q.2 keysRef).2.next := by
        rw [intersectH, Heap.alloc_next]
        omega
      have hmem2 : ∀ p ∈ rdA ++ [(q.1, (intersectH h q.2 keysRef).1)], n ≤ p.2 := by
        intro p hp
        rcases List.mem_append.mp hp with hp1 | hp2
        · exact hmem p hp1
        · rcases List.mem_singleton.mp hp2 with rfl
          show n ≤ h.next
          exact hnext
      have hstep := ih remainsRef (rdA ++ [(q.1, (intersectH h q.2 keysRef).1)])
        (intersectH h q.2 keysRef).2 hnext2 hmem2
      refine ⟨hstep.1, ?_, hstep.2.2.1, hstep.2.2.2⟩
      intro r hrn
      rw [hstep.2.1 r hrn]
      exact Heap.read_alloc_lt h _ r (by omega)
    · rw [if_neg hc]
      exact ih remainsRef rdA h hnext hmem

/-- The initialisation preserves every pre-existing cell and hands the loop
only fresh references. -/
lemma topoInitH_inv (h0 : Heap) (keysRef : Nat) (deps : List (String × Nat)) :
    h0.next ≤ (topoInitH h0 keysRef deps).1.1 ∧
      (∀ p ∈ (topoInitH h0 keysRef deps).1.2, h0.next ≤ p.2) ∧
      (∀ r, r < h0.next → (topoInitH h0 keysRef deps).2.read r = h0.read r) := by
  have hbase := topoInitGo_inv keysRef h0.next deps (deepCopyH h0 keysRef).1 []
    (deepCopyH h0 keysRef).2
    (by rw [deepCopyH, Heap.alloc_next]; omega)
    (by simp)
  have hcopy : (deepCopyH h0 keysRef).1 = h0.next := rfl
  refine ⟨?_, ?_, ?_⟩
  · show h0.next ≤ (topoInitGo keysRef deps (deepCopyH h0 keysRef).1 []
      (deepCopyH h0 keysRef).2).1.1
    rw [hbase.2.2.1, hcopy]
  · intro p hp
    exact hbase.2.2.2 p hp
  · intro r hr
    show (topoInitGo keysRef deps (deepCopyH h0 keysRef).1 []
      (deepCopyH h0 keysRef).2).2.read r = h0.read r
    rw [hbase.2.1 r hr]
    exact Heap.read_alloc_lt h0 _ r hr

/-- All pre-existing heap cells survive a run of the heap model. -/
lemma TopologicalOrderH_frame_all (h0 : Heap) (keysRef : Nat)
    (deps : List (String × Nat)) (depFirst handleCycle : Bool) :
    ∀ r, r < h0.next →
      (TopologicalOrderH h0 keysRef deps depFirst handleCycle).2.read r
        = h0.read r := by
  intro r hr
  have hini := topoInitH_inv h0 keysRef deps
  have hloop := topoLoopH_frame deps depFirst handleCycle h0.next
    (((topoInitH h0 keysRef deps).2).read (topoInitH h0 keysRef deps).1.1).length
    (topoInitH h0 keysRef deps).2 (topoInitH h0 keysRef deps).1.1
    (topoInitH h0 keysRef deps).1.2 hini.1 hini.2.1 r hr
  show (topoLoopH deps depFirst handleCycle
      (((topoInitH h0 keysRef deps).2).read (topoInitH h0 keysRef deps).1.1).length
      (topoInitH h0 keysRef deps).2 (topoInitH h0 keysRef deps).1.1
      (topoInitH h0 keysRef deps).1.2).2.read r = h0.read r
  rw [hloop]
  exact hini.2.2 r hr

/-- Claim C10: `TopologicalOrder` never mutates its arguments — after a run
of the heap model, the caller's key-set cell and every dependency-set cell
of the passed dependency map hold exactly what they held before the call
(the function works on a deep copy of the key set and on freshly allocated
per-key intersections). -/
theorem TopologicalOrderH_no_mutation (h0 : Heap) (keysRef : Nat)
    (deps : List (String × Nat)) (depFirst handleCycle : Bool)
    (hk : keysRef < h0.next) (hd : ∀ p ∈ deps, p.2 < h0.next) :
    (TopologicalOrderH h0 keysRef deps depFirst handleCycle).2.read keysRef
        = h0.read keysRef ∧
      ∀ p ∈ deps,
        (TopologicalOrderH h0 keysRef deps depFirst handleCycle).2.read p.2
          = h0.read p.2 :=
  ⟨TopologicalOrderH_frame_all h0 keysRef deps depFirst handleCycle keysRef hk,
    fun p hp => TopologicalOrderH_frame_all h0 keysRef deps depFirst handleCycle
      p.2 (hd p hp)⟩

/-- Witness for claim C10 on a concrete two-cell heap: the key set
`{u, v}` at cell 0 and the dependency set `{u}` of `v` at cell 1 are intact
after the call (and the call indeed computes the expected order). -/
theorem TopologicalOrderH_no_mutation_witness :
    ((TopologicalOrderH ⟨2, fun r => if r = 0 then ["u", "v"] else
        if r = 1 then ["u"] else []⟩ 0 [("v", 1)] true true).2.read 0
      = Heap.read ⟨2, fun r => if r = 0 then ["u", "v"] else
        if r = 1 then ["u"] else []⟩ 0) ∧
    (∀ p ∈ [(("v" : String), (1 : Nat))],
      (TopologicalOrderH ⟨2, fun r => if r = 0 then ["u", "v"] else
          if r = 1 then ["u"] else []⟩ 0 [("v", 1)] true true).2.read p.2
        = Heap.read ⟨2, fun r => if r = 0 then ["u", "v"] else
          if r = 1 then ["u"] else []⟩ p.2) ∧
    (TopologicalOrderH ⟨2, fun r => if r = 0 then ["u", "v"] else
        if r = 1 then ["u"] else []⟩ 0 [("v", 1)] true true).1
      = some ["u", "v"] :=
  ⟨(TopologicalOrderH_no_mutation _ 0 [("v", 1)] true true (by decide)
      (by decide)).1,
    (TopologicalOrderH_no_mutation _ 0 [("v", 1)] true true (by decide)
      (by decide)).2,
    by decide⟩

end CnInfra
